import Mathlib

set_option maxRecDepth 8192

/-
  Verification of the TrueCoach workout exporter (src/truecoach-export.js)
  against its natural-language specification.

  The script is embedded shallowly: JavaScript values that flow through the
  join and the serializer are modelled by `JSVal`; the pagination loop, the
  join loop and the CSV serializer are translated definition by definition
  from the source.  A reference delimited-text reader (`parseCSV`) and a
  spec-worded escaping function (`specEscapeCell`) are introduced only for
  the round-trip / refinement claims and follow the specification's words.
-/

namespace TCExport

/-- JavaScript-like primitive values as they occur in the script's data. -/
inductive JSVal where
  | undef
  | null
  | str (s : String)
  | num (n : Int)
  | bool (b : Bool)
  deriving DecidableEq

/-- JavaScript truthiness of a `JSVal` (undefined, null, "" and 0 are falsy). -/
def truthy : JSVal → Bool
  | .undef => false
  | .null => false
  | .str s => !(s == "")
  | .num n => !(n == 0)
  | .bool b => b

/-- JavaScript `String(v)` conversion, as applied by the serializer. -/
def jsToString : JSVal → String
  | .undef => "undefined"
  | .null => "null"
  | .str s => s
  | .num n => toString n
  | .bool b => if b then "true" else "false"

/-- JavaScript `a || b`: the left operand if truthy, otherwise the right. -/
def jsOr (a b : JSVal) : JSVal := if truthy a then a else b

/-- The character sequence the serializer produces for one cell value,
before escaping (`String(cell)` in the source). -/
def cellChars (v : JSVal) : List Char := (jsToString v).data

/-- A ParentRecord ("workout"): the fields the script reads. -/
structure Workout where
  id : JSVal
  due : JSVal
  title : JSVal
  deriving DecidableEq

/-- A ChildRecord ("workout item" / exercise): the fields the script reads. -/
structure WorkoutItem where
  id : JSVal
  workout_id : JSVal
  name : JSVal
  info : JSVal
  result : JSVal
  state : JSVal
  deriving DecidableEq

/-- `Map.prototype.set`: replace the entry with this key if present,
otherwise append a new entry (JS `Map` keys are unique). -/
def mapSet (m : List (JSVal × Workout)) (k : JSVal) (v : Workout) :
    List (JSVal × Workout) :=
  if m.any (fun e => decide (e.1 = k)) then
    m.map (fun e => if e.1 = k then (k, v) else e)
  else m ++ [(k, v)]

/-- `Map.prototype.get`: the value stored at this key, if any (keys of a
JS `Map` are unique, so the first matching entry is the entry). -/
def mapGet : List (JSVal × Workout) → JSVal → Option Workout
  | [], _ => none
  | e :: m, k => if e.1 = k then some e.2 else mapGet m k

/-- `for (const workout of allWorkouts) workoutMap.set(workout.id, workout)`
(src/truecoach-export.js lines 113-116). -/
def buildWorkoutMap (ws : List Workout) : List (JSVal × Workout) :=
  ws.foldl (fun m w => mapSet m w.id w) []

/-- The row pushed for one joined child record
(src/truecoach-export.js lines 133-140): each field defaulted with `|| ''`. -/
def dataRow (w : Workout) (it : WorkoutItem) : List JSVal :=
  [jsOr w.due (.str ""), jsOr it.name (.str ""), jsOr it.info (.str ""),
   jsOr it.result (.str ""), jsOr it.state (.str ""), jsOr w.title (.str "")]

/-- The fixed header row (src/truecoach-export.js line 122). -/
def headerRow : List JSVal :=
  [.str "date", .str "exercise_name", .str "instructions",
   .str "result", .str "state", .str "workout_title"]

/-- The join loop over `allWorkoutItems` (src/truecoach-export.js lines
125-141): emits a data row per matched item, records the id of every
orphan (the `console.warn` branch) and skips it. -/
def joinLoop (m : List (JSVal × Workout)) :
    List WorkoutItem → List (List JSVal) × List JSVal
  | [] => ([], [])
  | it :: rest =>
    match mapGet m it.workout_id with
    | none => ((joinLoop m rest).1, it.id :: (joinLoop m rest).2)
    | some w => (dataRow w it :: (joinLoop m rest).1, (joinLoop m rest).2)

/-- `csvRows`: the header row followed by the joined data rows
(src/truecoach-export.js lines 119-141). -/
def csvRows (ws : List Workout) (items : List WorkoutItem) : List (List JSVal) :=
  headerRow :: (joinLoop (buildWorkoutMap ws) items).1

/-- `str.includes(',') || str.includes('"') || str.includes('\n') ||
str.includes('\r')` (src/truecoach-export.js line 148). -/
def needsQuoting (s : List Char) : Bool :=
  s.contains ',' || s.contains '"' || s.contains '\n' || s.contains '\r'

/-- `str.replace(/"/g, '""')`: double every quote character. -/
def replaceQuotes : List Char → List Char
  | [] => []
  | c :: rest =>
    if c = '"' then '"' :: '"' :: replaceQuotes rest
    else c :: replaceQuotes rest

/-- The per-cell escaping of the serializer (src/truecoach-export.js lines
145-151): wrap in quotes, doubling inner quotes, iff the cell contains a
comma, a quote, a newline or a carriage return. -/
def escapeCell (s : List Char) : List Char :=
  if needsQuoting s then '"' :: (replaceQuotes s ++ ['"']) else s

/-- `Array.prototype.join(sep)` on already-serialized fragments. -/
def joinSep (sep : List Char) : List (List Char) → List Char
  | [] => []
  | [x] => x
  | x :: y :: rest => x ++ sep ++ joinSep sep (y :: rest)

/-- One serialized row: escaped cells joined with commas
(`row.map(...).join(',')`). -/
def serializeRow (cells : List (List Char)) : List Char :=
  joinSep [','] (cells.map escapeCell)

/-- The whole serialized table: rows joined with LF (`.join('\n')`),
operating on cells already converted to text. -/
def serializeTable (table : List (List (List Char))) : List Char :=
  joinSep ['\n'] (table.map serializeRow)

/-- `csvContent` (src/truecoach-export.js lines 144-153): stringify each
cell with `String(...)`, escape it, join cells with commas and rows with
LF. -/
def csvContent (rows : List (List JSVal)) : List Char :=
  serializeTable (rows.map (fun row => row.map cellChars))

/-- Spec-side doubling of one character: a quote becomes two quotes. -/
def dupQuote (c : Char) : List Char := if c = '"' then ['"', '"'] else [c]

/-- Escaping rule stated by the spec's words (spec §4.4): if the cell
contains the separator, a double quote, or a line-break character (LF or
CR), wrap it in double quotes doubling every inner quote; otherwise emit
it unchanged.  Introduced only to compare with the source's `escapeCell`. -/
def specEscapeCell (s : List Char) : List Char :=
  if ',' ∈ s ∨ '"' ∈ s ∨ '\n' ∈ s ∨ '\r' ∈ s then
    '"' :: ((s.map dupQuote).flatten ++ ['"'])
  else s

/-- Field/record delimiter kind met after a cell. -/
inductive Sep where
  | comma
  | newline
  | eof

/-- Reference reader, unquoted cell: read characters until a comma, an LF
or the end of input.  Modelled from the spec's round-trip requirement
("a standard delimited-text parser", RFC-4180 style with LF records,
matching the serializer's LF choice). -/
def parseUnquoted : List Char → List Char × Sep × List Char
  | [] => ([], Sep.eof, [])
  | c :: rest =>
    if c = ',' then ([], Sep.comma, rest)
    else if c = '\n' then ([], Sep.newline, rest)
    else
      match parseUnquoted rest with
      | (v, s, r) => (c :: v, s, r)

/-- Reference reader, quoted cell body: a doubled quote yields one literal
quote, a single quote closes the cell, anything else is kept verbatim. -/
def parseQuoted : List Char → List Char × List Char
  | [] => ([], [])
  | c :: rest =>
    if c = '"' then
      match rest with
      | [] => ([], [])
      | d :: rest' =>
        if d = '"' then
          match parseQuoted rest' with
          | (v, r) => ('"' :: v, r)
        else ([], rest)
    else
      match parseQuoted rest with
      | (v, r) => (c :: v, r)

/-- Reference reader: the delimiter following a closing quote (leniently
skipping any stray character). -/
def parseSep : List Char → Sep × List Char
  | [] => (Sep.eof, [])
  | c :: rest =>
    if c = ',' then (Sep.comma, rest)
    else if c = '\n' then (Sep.newline, rest)
    else parseSep rest

/-- Reference reader: one cell, quoted or not, together with the delimiter
that ends it. -/
def parseCell (input : List Char) : List Char × Sep × List Char :=
  match input with
  | [] => parseUnquoted []
  | c :: rest =>
    if c = '"' then
      match parseQuoted rest with
      | (v, r) =>
        match parseSep r with
        | (sp, r2) => (v, sp, r2)
    else parseUnquoted (c :: rest)

/-- Reference reader: one record (fuel bounds the number of cells). -/
def parseRowF : Nat → List Char → List (List Char) × Option (List Char)
  | 0, _ => ([], none)
  | fuel + 1, input =>
    match parseCell input with
    | (v, Sep.eof, _) => ([v], none)
    | (v, Sep.newline, r) => ([v], some r)
    | (v, Sep.comma, r) =>
      match parseRowF fuel r with
      | (cells, rest) => (v :: cells, rest)

/-- Reference reader: all records of a nonempty input. -/
def parseRowsF : Nat → List Char → List (List (List Char))
  | 0, _ => []
  | _ + 1, [] => []
  | fuel + 1, c :: rest =>
    match parseRowF (fuel + 1) (c :: rest) with
    | (row, none) => [row]
    | (row, some r) => row :: parseRowsF fuel r

/-- Reference delimited-text reader over a whole input. -/
def parseCSV (input : List Char) : List (List (List Char)) :=
  parseRowsF (input.length + 1) input

/-- Total number of cells of a table (fuel accounting for the reader). -/
def totalCells (table : List (List (List Char))) : Nat :=
  (table.map List.length).sum

/-- One page of the remote response: `data.meta.total_pages`,
`data.meta.total_count`, `data.workouts`, `data.workout_items`. -/
structure PageData where
  total_pages : Nat
  total_count : Nat
  workouts : List Workout
  workout_items : List WorkoutItem
  deriving DecidableEq

/-- Outcome of one `fetch`: a parsed page, or a non-success HTTP status
(the `!response.ok` branch which throws). -/
inductive FetchResult where
  | ok (d : PageData)
  | err (status : Nat)
  deriving DecidableEq

/-- Result of the whole pagination loop: which pages were fetched (in
order), and either the accumulated records or the failing status. -/
structure CollectOutcome where
  fetched : List Nat
  result : Except Nat (List Workout × List WorkoutItem)

/-- The pagination loop from its second iteration on
(src/truecoach-export.js lines 67-108): `totalPages` is no longer
re-assigned because `currentPage === 1` is false; the loop continues
while `currentPage <= totalPages`.  `fuel` bounds the remaining
iterations and is chosen large enough by `collect`. -/
def collectRest (pages : Nat → FetchResult) (tp : Nat) :
    Nat → Nat → List Workout → List WorkoutItem → List Nat → CollectOutcome
  | 0, cp, ws, its, log =>
    match pages cp with
    | .err status => ⟨log ++ [cp], .error status⟩
    | .ok d => ⟨log ++ [cp], .ok (ws ++ d.workouts, its ++ d.workout_items)⟩
  | fuel + 1, cp, ws, its, log =>
    match pages cp with
    | .err status => ⟨log ++ [cp], .error status⟩
    | .ok d =>
      if cp + 1 ≤ tp then
        collectRest pages tp fuel (cp + 1)
          (ws ++ d.workouts) (its ++ d.workout_items) (log ++ [cp])
      else ⟨log ++ [cp], .ok (ws ++ d.workouts, its ++ d.workout_items)⟩

/-- The full `do ... while (currentPage <= totalPages)` collection
(src/truecoach-export.js lines 60-108): page 1 is fetched first, its
`data.meta.total_pages` becomes the loop bound, and later pages are
fetched while the page number does not exceed it. -/
def collect (pages : Nat → FetchResult) : CollectOutcome :=
  match pages 1 with
  | .err status => ⟨[1], .error status⟩
  | .ok d =>
    if 2 ≤ d.total_pages then
      collectRest pages d.total_pages (d.total_pages - 2) 2
        d.workouts d.workout_items [1]
    else ⟨[1], .ok (d.workouts, d.workout_items)⟩

/-- The list `[start, start+1, ..., start+n-1]` of consecutive page
numbers. -/
def pagesFrom (start : Nat) : Nat → List Nat
  | 0 => []
  | n + 1 => start :: pagesFrom (start + 1) n

/-- The `authenticated` object of the parsed session cookie; each field is
`undefined` when absent in the JSON. -/
structure Authenticated where
  access_token : JSVal
  user_id : JSVal
  deriving DecidableEq

/-- The parsed session cookie value (`getAuthCookie`'s JSON): the
`authenticated` key may be absent. -/
structure SessionData where
  authenticated : Option Authenticated
  deriving DecidableEq

/-- `json?.authenticated?.access_token`: undefined when the cookie is
missing/unparsable or the chain breaks. -/
def authChainToken : Option SessionData → JSVal
  | none => .undef
  | some sd =>
    match sd.authenticated with
    | none => .undef
    | some a => a.access_token

/-- `json?.authenticated?.user_id`, same optional chain. -/
def authChainUser : Option SessionData → JSVal
  | none => .undef
  | some sd =>
    match sd.authenticated with
    | none => .undef
    | some a => a.user_id

/-- `getBearerToken` (src/truecoach-export.js lines 36-39):
`json?.authenticated?.access_token || null`. -/
def getBearerToken (cookie : Option SessionData) : JSVal :=
  jsOr (authChainToken cookie) .null

/-- `getClientID` (src/truecoach-export.js lines 41-44):
`json?.authenticated?.user_id || null`. -/
def getClientID (cookie : Option SessionData) : JSVal :=
  jsOr (authChainUser cookie) .null

/-- How a run ends: early return for a missing token, the catch branch
for a failed fetch, or a completed export with its CSV bytes. -/
inductive RunOutcome where
  | noToken
  | failed (status : Nat)
  | completed (csv : List Char)
  deriving DecidableEq

/-- A whole run: its outcome and the pages actually fetched (the network
calls that were issued), in order. -/
structure RunResult where
  outcome : RunOutcome
  fetched : List Nat
  deriving DecidableEq

/-- The top-level run (src/truecoach-export.js lines 52-172): extract the
bearer token and return early if it is falsy (no fetch happens); otherwise
run the pagination loop, and on success join and serialize; any thrown
fetch error lands in the catch branch and no file is produced.  Note the
client id is never checked before fetching. -/
def runExport (cookie : Option SessionData) (pages : Nat → FetchResult) :
    RunResult :=
  if truthy (getBearerToken cookie) then
    match collect pages with
    | ⟨log, .error status⟩ => ⟨.failed status, log⟩
    | ⟨log, .ok (ws, its)⟩ => ⟨.completed (csvContent (csvRows ws its)), log⟩
  else ⟨.noToken, []⟩

/-! ### Lemmas about the JS `Map` model -/

theorem mapGet_nil (k : JSVal) : mapGet [] k = none := rfl

theorem mapGet_replace_self (m : List (JSVal × Workout)) (k : JSVal) (v : Workout) :
    mapGet (m.map (fun e => if e.1 = k then (k, v) else e)) k =
      if m.any (fun e => decide (e.1 = k)) then some v else none := by
  induction m with
  | nil => rfl
  | cons e m ih =>
    by_cases he : e.1 = k
    · simp [mapGet, he]
    · simp [mapGet, he, ih]
      simp only [he, decide_False, Bool.false_or]

theorem mapGet_replace_other (m : List (JSVal × Workout)) (k : JSVal) (v : Workout)
    (k' : JSVal) (hne : k' ≠ k) :
    mapGet (m.map (fun e => if e.1 = k then (k, v) else e)) k' = mapGet m k' := by
  induction m with
  | nil => rfl
  | cons e m ih =>
    by_cases he : e.1 = k
    · have h1 : ¬ (k = k') := fun h => hne h.symm
      simp [mapGet, he, h1, ih]
    · by_cases hd : e.1 = k' <;> simp [mapGet, he, hd, hne, ih]

theorem mapGet_append_single (m : List (JSVal × Workout)) (k : JSVal) (v : Workout)
    (k' : JSVal) :
    mapGet (m ++ [(k, v)]) k' =
      match mapGet m k' with
      | some w => some w
      | none => if k' = k then some v else none := by
  induction m with
  | nil =>
    by_cases h : k' = k
    · simp [mapGet, h]
    · have h1 : ¬ (k = k') := fun hh => h hh.symm
      simp [mapGet, h, h1]
  | cons e m ih =>
    by_cases hd : e.1 = k' <;> simp [mapGet, hd, ih]

theorem mapGet_eq_none_of_not_any (m : List (JSVal × Workout)) (k : JSVal)
    (h : m.any (fun e => decide (e.1 = k)) = false) : mapGet m k = none := by
  induction m with
  | nil => rfl
  | cons e m ih =>
    simp only [List.any_cons, Bool.or_eq_false_iff, decide_eq_false_iff_not] at h
    simp [mapGet, h.1, ih (by simpa using h.2)]

theorem mapGet_mapSet (m : List (JSVal × Workout)) (k : JSVal) (v : Workout)
    (k' : JSVal) :
    mapGet (mapSet m k v) k' = if k' = k then some v else mapGet m k' := by
  unfold mapSet
  cases hany : m.any (fun e => decide (e.1 = k)) with
  | true =>
    simp only [hany, if_true]
    by_cases hk : k' = k
    · subst hk
      rw [mapGet_replace_self, hany]
      simp
    · rw [mapGet_replace_other m k v k' hk, if_neg hk]
  | false =>
    simp only [hany, Bool.false_eq_true, if_false]
    rw [mapGet_append_single]
    by_cases hk : k' = k
    · subst hk
      rw [mapGet_eq_none_of_not_any m k' hany]
    · cases hm : mapGet m k' <;> simp [hm, hk]

theorem mapGet_foldl (ws : List Workout) (m : List (JSVal × Workout)) (k : JSVal) :
    mapGet (ws.foldl (fun m w => mapSet m w.id w) m) k =
      match ws.reverse.find? (fun w => decide (w.id = k)) with
      | some w => some w
      | none => mapGet m k := by
  induction ws generalizing m with
  | nil => simp
  | cons w ws ih =>
    simp only [List.foldl_cons, List.reverse_cons]
    rw [ih, List.find?_append]
    cases hf : ws.reverse.find? (fun w => decide (w.id = k)) with
    | some u => simp [hf]
    | none =>
      simp only [hf, Option.none_or]
      rw [mapGet_mapSet]
      by_cases hw : w.id = k
      · simp [List.find?, hw]
      · have h1 : ¬ (k = w.id) := fun h => hw h.symm
        simp [List.find?, hw, h1, decide_False]

/-- The lookup map built by the join: a key maps to the LAST workout of
the sequence bearing that id. -/
theorem mapGet_buildWorkoutMap (ws : List Workout) (k : JSVal) :
    mapGet (buildWorkoutMap ws) k =
      ws.reverse.find? (fun w => decide (w.id = k)) := by
  unfold buildWorkoutMap
  rw [mapGet_foldl]
  cases hf : ws.reverse.find? (fun w => decide (w.id = k)) <;> simp [mapGet]

/-! ### Lemmas about the join loop -/

theorem joinLoop_eq (m : List (JSVal × Workout)) (items : List WorkoutItem) :
    joinLoop m items =
      (items.filterMap
        (fun it => (mapGet m it.workout_id).map (fun w => dataRow w it)),
       (items.filter (fun it => (mapGet m it.workout_id).isNone)).map
        (fun it => it.id)) := by
  induction items with
  | nil => rfl
  | cons it rest ih =>
    cases h : mapGet m it.workout_id <;>
      simp [joinLoop, h, ih, List.filterMap_cons, List.filter_cons]

theorem joinLoop_rows_length (m : List (JSVal × Workout)) (items : List WorkoutItem) :
    (joinLoop m items).1.length =
      (items.filter (fun it => (mapGet m it.workout_id).isSome)).length := by
  induction items with
  | nil => rfl
  | cons it rest ih =>
    cases h : mapGet m it.workout_id <;>
      simp [joinLoop, h, List.filter_cons, ih]

theorem joinLoop_rows_cells (m : List (JSVal × Workout)) (items : List WorkoutItem) :
    ∀ r ∈ (joinLoop m items).1, r.length = 6 := by
  induction items with
  | nil => intro r hr; cases hr
  | cons it rest ih =>
    intro r hr
    cases h : mapGet m it.workout_id
    · rw [joinLoop] at hr
      rw [h] at hr
      exact ih r hr
    · rw [joinLoop] at hr
      rw [h] at hr
      rcases List.mem_cons.mp hr with hr | hr
      · subst hr; rfl
      · exact ih r hr

/-! ### Lemmas about the escaping rule -/

theorem replaceQuotes_eq_flatten (s : List Char) :
    replaceQuotes s = (s.map dupQuote).flatten := by
  induction s with
  | nil => rfl
  | cons c rest ih =>
    by_cases h : c = '"' <;> simp [replaceQuotes, dupQuote, h, ih]

theorem needsQuoting_iff (s : List Char) :
    needsQuoting s = true ↔ (',' ∈ s ∨ '"' ∈ s ∨ '\n' ∈ s ∨ '\r' ∈ s) := by
  simp [needsQuoting, List.contains, List.elem_iff, or_assoc]

theorem escapeCell_eq_spec (s : List Char) : escapeCell s = specEscapeCell s := by
  unfold escapeCell specEscapeCell
  by_cases h : needsQuoting s = true
  · rw [if_pos h, if_pos ((needsQuoting_iff s).mp h), replaceQuotes_eq_flatten]
  · rw [if_neg h, if_neg (fun hc => h ((needsQuoting_iff s).mpr hc))]

theorem jsToString_jsOr_empty (v : JSVal) :
    jsToString (jsOr v (.str "")) = if truthy v then jsToString v else "" := by
  unfold jsOr
  split <;> rfl

/-! ### Lemmas about the pagination loop -/

theorem pagesFrom_length (s n : Nat) : (pagesFrom s n).length = n := by
  induction n generalizing s with
  | zero => rfl
  | succ n ih => simp [pagesFrom, ih]

theorem collectRest_ok (pages : Nat → FetchResult) (tp : Nat) :
    ∀ fuel cp ws its log, 2 ≤ cp → cp ≤ tp → tp - cp ≤ fuel →
    (∀ p, cp ≤ p → p ≤ tp → ∃ e, pages p = FetchResult.ok e) →
    ∃ acc, collectRest pages tp fuel cp ws its log =
      ⟨log ++ pagesFrom cp (tp + 1 - cp), Except.ok acc⟩ := by
  intro fuel
  induction fuel with
  | zero =>
    intro cp ws its log h2 hle hfuel hok
    have hcp : cp = tp := by omega
    rcases hok cp (le_refl cp) hle with ⟨e, he⟩
    refine ⟨(ws ++ e.workouts, its ++ e.workout_items), ?_⟩
    have h1 : tp + 1 - cp = 1 := by omega
    rw [h1]
    simp [collectRest, he, pagesFrom]
  | succ fuel ih =>
    intro cp ws its log h2 hle hfuel hok
    rcases hok cp (le_refl cp) hle with ⟨e, he⟩
    by_cases hnext : cp + 1 ≤ tp
    · obtain ⟨acc, hacc⟩ :=
        ih (cp + 1) (ws ++ e.workouts) (its ++ e.workout_items) (log ++ [cp])
          (by omega) hnext (by omega) (fun p hp1 hp2 => hok p (by omega) hp2)
      refine ⟨acc, ?_⟩
      simp only [collectRest, he]
      rw [if_pos hnext, hacc]
      have ha : tp + 1 - cp = (tp - cp) + 1 := by omega
      have hb : tp + 1 - (cp + 1) = tp - cp := by omega
      rw [ha, hb, pagesFrom, List.append_assoc]
      rfl
    · have hcp : cp = tp := by omega
      refine ⟨(ws ++ e.workouts, its ++ e.workout_items), ?_⟩
      simp only [collectRest, he]
      rw [if_neg hnext]
      have h1 : tp + 1 - cp = 1 := by omega
      rw [h1]
      simp [pagesFrom]

theorem collectRest_fail (pages : Nat → FetchResult) (tp k status : Nat) :
    ∀ fuel cp ws its log, 2 ≤ cp → cp ≤ k → k ≤ tp → tp - cp ≤ fuel →
    (∀ p, cp ≤ p → p < k → ∃ e, pages p = FetchResult.ok e) →
    pages k = FetchResult.err status →
    collectRest pages tp fuel cp ws its log =
      ⟨log ++ pagesFrom cp (k + 1 - cp), Except.error status⟩ := by
  intro fuel
  induction fuel with
  | zero =>
    intro cp ws its log h2 hck hkt hfuel hok hfail
    have hceq : cp = k := by omega
    subst hceq
    have h1 : cp + 1 - cp = 1 := by omega
    rw [h1]
    simp [collectRest, hfail, pagesFrom]
  | succ fuel ih =>
    intro cp ws its log h2 hck hkt hfuel hok hfail
    by_cases hceq : cp = k
    · subst hceq
      have h1 : cp + 1 - cp = 1 := by omega
      rw [h1]
      simp [collectRest, hfail, pagesFrom]
    · have hlt : cp < k := by omega
      rcases hok cp (le_refl cp) hlt with ⟨e, he⟩
      have hnext : cp + 1 ≤ tp := by omega
      simp only [collectRest, he]
      rw [if_pos hnext,
        ih (cp + 1) (ws ++ e.workouts) (its ++ e.workout_items) (log ++ [cp])
          (by omega) (by omega) hkt (by omega)
          (fun p hp1 hp2 => hok p (by omega) hp2) hfail]
      have ha : k + 1 - cp = (k - cp) + 1 := by omega
      have hb : k + 1 - (cp + 1) = k - cp := by omega
      rw [ha, hb, pagesFrom, List.append_assoc]
      rfl

/-! ### Round-trip lemmas: the reference reader inverts the serializer -/

theorem parseQuoted_replaceQuotes (s t : List Char) (ht : t.head? ≠ some '"') :
    parseQuoted (replaceQuotes s ++ '"' :: t) = (s, t) := by
  induction s with
  | nil =>
    cases t with
    | nil => rfl
    | cons d t' =>
      have hd : d ≠ '"' := by
        intro h
        exact ht (by rw [h]; rfl)
      simp [replaceQuotes, parseQuoted, hd]
  | cons c s' ih =>
    by_cases hc : c = '"'
    · subst hc
      simp [replaceQuotes, parseQuoted, ih]
    · have hrq : replaceQuotes (c :: s') = c :: replaceQuotes s' := by
        simp [replaceQuotes, hc]
      rw [hrq, List.cons_append, parseQuoted.eq_def]
      simp [hc, ih]

theorem parseUnquoted_append (s t : List Char) (v : List Char) (sp : Sep)
    (r : List Char) (hs : ∀ c ∈ s, c ≠ ',' ∧ c ≠ '\n')
    (ht : parseUnquoted t = (v, sp, r)) :
    parseUnquoted (s ++ t) = (s ++ v, sp, r) := by
  induction s with
  | nil => simpa using ht
  | cons c s' ih =>
    have hc := hs c (List.mem_cons_self c s')
    have ih' := ih (fun x hx => hs x (List.mem_cons_of_mem c hx))
    simp [parseUnquoted, hc.1, hc.2, ih']

theorem chars_of_not_needsQuoting (s : List Char) (h : needsQuoting s = false) :
    ∀ c ∈ s, c ≠ ',' ∧ c ≠ '"' ∧ c ≠ '\n' ∧ c ≠ '\r' := by
  intro c hc
  have hns : ¬ (',' ∈ s ∨ '"' ∈ s ∨ '\n' ∈ s ∨ '\r' ∈ s) := by
    intro hmem
    rw [(needsQuoting_iff s).mpr hmem] at h
    cases h
  push_neg at hns
  exact ⟨fun hceq => hns.1 (hceq ▸ hc), fun hceq => hns.2.1 (hceq ▸ hc),
    fun hceq => hns.2.2.1 (hceq ▸ hc), fun hceq => hns.2.2.2 (hceq ▸ hc)⟩

theorem parseCell_escape (c t : List Char)
    (ht : t = [] ∨ (∃ r, t = ',' :: r) ∨ (∃ r, t = '\n' :: r)) :
    parseCell (escapeCell c ++ t) = (c, (parseSep t).1, (parseSep t).2) := by
  have ht' : t.head? ≠ some '"' := by
    rcases ht with rfl | ⟨r, rfl⟩ | ⟨r, rfl⟩ <;> simp
  by_cases hq : needsQuoting c = true
  · have hesc : escapeCell c = '"' :: (replaceQuotes c ++ ['"']) := by
      rw [escapeCell, if_pos hq]
    rw [hesc, List.cons_append, List.append_assoc]
    have h1 : ['"'] ++ t = '"' :: t := rfl
    rw [h1]
    have h2 := parseQuoted_replaceQuotes c t ht'
    rcases hsep : parseSep t with ⟨sp, r2⟩
    simp [parseCell, h2, hsep]
  · have hqf : needsQuoting c = false := by
      revert hq
      cases needsQuoting c <;> simp
    have hesc : escapeCell c = c := by rw [escapeCell, if_neg hq]
    rw [hesc]
    have hchars := chars_of_not_needsQuoting c hqf
    have htu : parseUnquoted t = ([], (parseSep t).1, (parseSep t).2) := by
      rcases ht with rfl | ⟨r, rfl⟩ | ⟨r, rfl⟩ <;> simp [parseUnquoted, parseSep]
    cases c with
    | nil =>
      simp only [List.nil_append]
      rcases ht with rfl | ⟨r, rfl⟩ | ⟨r, rfl⟩ <;>
        simp [parseCell, parseUnquoted, parseSep]
    | cons ch c' =>
      have hch := hchars ch (List.mem_cons_self ch c')
      have hL2 := parseUnquoted_append (ch :: c') t [] ((parseSep t).1)
        ((parseSep t).2)
        (fun x hx => ⟨(hchars x hx).1, (hchars x hx).2.2.1⟩) htu
      rw [List.append_nil] at hL2
      simp only [List.cons_append] at hL2 ⊢
      simp [parseCell, hch.2.1, hL2]

theorem serializeRow_cons_cons (c c2 : List Char) (cs : List (List Char)) :
    serializeRow (c :: c2 :: cs) = escapeCell c ++ ',' :: serializeRow (c2 :: cs) := by
  simp [serializeRow, joinSep, List.append_assoc]

theorem serializeRow_single (c : List Char) : serializeRow [c] = escapeCell c := rfl

theorem serializeRow_ne_nil (c c2 : List Char) (cs : List (List Char)) :
    serializeRow (c :: c2 :: cs) ≠ [] := by
  rw [serializeRow_cons_cons]
  intro h
  rcases List.append_eq_nil.mp h with ⟨_, h2⟩
  cases h2

theorem parseRowF_serializeRow (cells : List (List Char)) :
    ∀ fuel, cells ≠ [] → cells.length ≤ fuel →
    parseRowF fuel (serializeRow cells) = (cells, none) := by
  induction cells with
  | nil => intro fuel h _; exact absurd rfl h
  | cons c cs ih =>
    intro fuel _ hlen
    obtain ⟨f, rfl⟩ : ∃ f, fuel = f + 1 := by
      cases fuel
      · simp at hlen
      · exact ⟨_, rfl⟩
    cases cs with
    | nil =>
      rw [serializeRow_single]
      have h := parseCell_escape c [] (Or.inl rfl)
      rw [List.append_nil] at h
      simp [parseRowF, h, parseSep]
    | cons c2 cs2 =>
      rw [serializeRow_cons_cons]
      have h := parseCell_escape c (',' :: serializeRow (c2 :: cs2))
        (Or.inr (Or.inl ⟨_, rfl⟩))
      have hrec := ih f (by simp) (by simpa using hlen)
      simp [parseRowF, h, parseSep, hrec]

theorem parseRowF_serializeRow_newline (cells : List (List Char)) :
    ∀ fuel t, cells ≠ [] → cells.length ≤ fuel →
    parseRowF fuel (serializeRow cells ++ '\n' :: t) = (cells, some t) := by
  induction cells with
  | nil => intro fuel t h _; exact absurd rfl h
  | cons c cs ih =>
    intro fuel t _ hlen
    obtain ⟨f, rfl⟩ : ∃ f, fuel = f + 1 := by
      cases fuel
      · simp at hlen
      · exact ⟨_, rfl⟩
    cases cs with
    | nil =>
      rw [serializeRow_single]
      have h := parseCell_escape c ('\n' :: t) (Or.inr (Or.inr ⟨_, rfl⟩))
      simp [parseRowF, h, parseSep]
    | cons c2 cs2 =>
      rw [serializeRow_cons_cons, List.append_assoc, List.cons_append]
      have h := parseCell_escape c (',' :: (serializeRow (c2 :: cs2) ++ '\n' :: t))
        (Or.inr (Or.inl ⟨_, rfl⟩))
      have hrec := ih f t (by simp) (by simpa using hlen)
      simp only [List.cons_append] at h ⊢
      simp [parseRowF, h, parseSep, hrec]

theorem serializeTable_single (r : List (List Char)) :
    serializeTable [r] = serializeRow r := rfl

theorem serializeTable_cons_cons (r r2 : List (List Char))
    (rs : List (List (List Char))) :
    serializeTable (r :: r2 :: rs) =
      serializeRow r ++ '\n' :: serializeTable (r2 :: rs) := by
  simp [serializeTable, joinSep, List.append_assoc]

theorem totalCells_cons (r : List (List Char)) (rs : List (List (List Char))) :
    totalCells (r :: rs) = r.length + totalCells rs := by
  simp [totalCells]

theorem serializeRow_length (cells : List (List Char)) :
    cells.length ≤ (serializeRow cells).length + 1 := by
  induction cells with
  | nil => simp
  | cons c cs ih =>
    cases cs with
    | nil => simp [serializeRow_single]
    | cons c2 cs2 =>
      rw [serializeRow_cons_cons]
      simp only [List.length_append, List.length_cons] at ih ⊢
      omega

theorem totalCells_le (table : List (List (List Char))) :
    totalCells table ≤ (serializeTable table).length + 1 := by
  induction table with
  | nil => simp [totalCells, serializeTable, joinSep]
  | cons r rs ih =>
    cases rs with
    | nil =>
      rw [totalCells_cons, serializeTable_single]
      have := serializeRow_length r
      simp [totalCells]
      omega
    | cons r2 rs2 =>
      rw [totalCells_cons, serializeTable_cons_cons]
      have h1 := serializeRow_length r
      simp only [List.length_append, List.length_cons] at ih ⊢
      omega

theorem parseRowsF_serializeTable (table : List (List (List Char))) :
    ∀ fuel, (∀ row ∈ table, 2 ≤ row.length) → totalCells table ≤ fuel →
    parseRowsF fuel (serializeTable table) = table := by
  induction table with
  | nil =>
    intro fuel _ _
    cases fuel <;> rfl
  | cons r table ih =>
    intro fuel hrows hf
    have hr2 : 2 ≤ r.length := hrows r (List.mem_cons_self r table)
    obtain ⟨c, c2, cs, rfl⟩ : ∃ c c2 cs, r = c :: c2 :: cs := by
      cases r with
      | nil => simp at hr2
      | cons a as =>
        cases as with
        | nil => simp at hr2
        | cons b bs => exact ⟨a, b, bs, rfl⟩
    obtain ⟨f, rfl⟩ : ∃ f, fuel = f + 1 := by
      rw [totalCells_cons] at hf
      cases fuel
      · omega
      · exact ⟨_, rfl⟩
    rw [totalCells_cons] at hf
    simp only [List.length_cons] at hr2 hf
    obtain ⟨a, as, ha⟩ : ∃ a as, serializeRow (c :: c2 :: cs) = a :: as := by
      cases hsr : serializeRow (c :: c2 :: cs) with
      | nil => exact absurd hsr (serializeRow_ne_nil c c2 cs)
      | cons a as => exact ⟨a, as, rfl⟩
    cases table with
    | nil =>
      rw [serializeTable_single, ha]
      have hrow := parseRowF_serializeRow (c :: c2 :: cs) (f + 1) (by simp)
        (by simp; omega)
      rw [ha] at hrow
      simp [parseRowsF, hrow]
    | cons r2 rest =>
      rw [serializeTable_cons_cons, ha, List.cons_append]
      have hrow := parseRowF_serializeRow_newline (c :: c2 :: cs) (f + 1)
        (serializeTable (r2 :: rest)) (by simp) (by simp; omega)
      rw [ha, List.cons_append] at hrow
      have hrest := ih f (fun row hrow => hrows row (List.mem_cons_of_mem _ hrow))
        (by omega)
      simp [parseRowsF, hrow, hrest]

theorem parseCSV_serializeTable (table : List (List (List Char)))
    (h : ∀ row ∈ table, 2 ≤ row.length) :
    parseCSV (serializeTable table) = table :=
  parseRowsF_serializeTable table ((serializeTable table).length + 1) h
    (totalCells_le table)

/-! ### Claims C3, C4, C8, C9, C10 -/

/-- C3: for every ParentRecord sequence and ChildRecord sequence, the
Joiner emits exactly one JoinedRow per ChildRecord whose `workout_id`
matches some ParentRecord id (the rows are the `filterMap` of the lookup
over the ChildRecord sequence, hence one row per matched child and in the
same order as the ChildRecord sequence), emits no row for an unmatched
ChildRecord, and reports every orphan by its `id`. -/
theorem join_emits_matched_in_order (ws : List Workout) (items : List WorkoutItem) :
    joinLoop (buildWorkoutMap ws) items =
      (items.filterMap
        (fun it => (mapGet (buildWorkoutMap ws) it.workout_id).map
          (fun w => dataRow w it)),
       (items.filter
        (fun it => (mapGet (buildWorkoutMap ws) it.workout_id).isNone)).map
        (fun it => it.id)) :=
  joinLoop_eq _ items

/-- C4: every cell, header and data alike, is serialized under the spec's
escaping rule: a cell containing a comma, a double-quote, or a line-break
character (LF or CR) is emitted wrapped in double quotes with every
literal double-quote doubled; any other cell is emitted unquoted and
unchanged (`specEscapeCell` is that rule, stated in the spec's words). -/
theorem serializer_escaping_rule (table : List (List (List Char))) :
    serializeTable table =
      joinSep ['\n'] (table.map (fun row => joinSep [','] (row.map specEscapeCell))) := by
  have h : serializeRow = fun row => joinSep [','] (row.map specEscapeCell) := by
    funext row
    rw [serializeRow, funext escapeCell_eq_spec]
  rw [serializeTable, h]

/-- C8: for every ParentRecord sequence, duplicates included, the Joiner's
lookup keeps the last occurrence of each duplicated id: looking a key up
returns the first match of the REVERSED sequence, i.e. the last workout
carrying that id.  The build and the lookup are total functions, so
duplicates can never make the run fail. -/
theorem map_last_write_wins (ws : List Workout) (k : JSVal) :
    mapGet (buildWorkoutMap ws) k =
      ws.reverse.find? (fun w => decide (w.id = k)) :=
  mapGet_buildWorkoutMap ws k

/-- C9 counterexample: a child whose `result` field is the number 0 has
that cell serialized as the empty string (the `|| ''` defaulting collapses
every falsy value), not as its textual representation "0", refuting the
claim that a non-string value such as 0 serializes as its textual
representation. -/
theorem zero_cell_counterexample :
    (dataRow ⟨.num 5, .str "2024-01-01", .str "Leg Day"⟩
      ⟨.num 9, .num 5, .str "Squat", .str "", .num 0, .str "completed"⟩).map jsToString
      = ["2024-01-01", "Squat", "", "", "completed", "Leg Day"] ∧
    jsToString (JSVal.num 0) = "0" ∧ ("" : String) ≠ "0" := by
  refine ⟨by decide, by decide, by decide⟩

/-- C9 (amended): each data cell is `field || ''` followed by
`String(...)`: a truthy field serializes via its natural textual
representation (`jsToString`), and every falsy field — missing/undefined,
null, the empty string, but also the number 0 and false — serializes as
the empty string (never as a literal "null"/"undefined" marker). -/
theorem falsy_cells_serialize_empty (w : Workout) (it : WorkoutItem) :
    (dataRow w it).map jsToString =
      [if truthy w.due then jsToString w.due else "",
       if truthy it.name then jsToString it.name else "",
       if truthy it.info then jsToString it.info else "",
       if truthy it.result then jsToString it.result else "",
       if truthy it.state then jsToString it.state else "",
       if truthy w.title then jsToString w.title else ""] := by
  simp [dataRow, jsToString_jsOr_empty]

/-- C10: the join lookup uses strict `Map` key equality: a child whose
`workout_id` is the string form of a number never matches a parent whose
id is that number (loose value equality notwithstanding); such a child
yields no row and its id is reported as an orphan. -/
theorem strict_key_mismatch_orphan (ws : List Workout) (it : WorkoutItem)
    (s : String) (n : Int)
    (hid : it.workout_id = JSVal.str s)
    (hnum : ∀ w ∈ ws, ∃ m : Int, w.id = JSVal.num m)
    (_hloose : s = toString n ∧ ∃ w ∈ ws, w.id = JSVal.num n) :
    mapGet (buildWorkoutMap ws) it.workout_id = none ∧
    joinLoop (buildWorkoutMap ws) [it] = ([], [it.id]) := by
  have hget : mapGet (buildWorkoutMap ws) it.workout_id = none := by
    rw [mapGet_buildWorkoutMap, hid, List.find?_eq_none]
    intro w hw
    rcases hnum w (List.mem_reverse.mp hw) with ⟨m, hm⟩
    simp [hm]
  exact ⟨hget, by simp [joinLoop, hget]⟩

/-- C1 counterexample: when page 1's metadata reports `total_pages = 0`,
the collector still performs 1 fetch (the do-while loop fetches page 1
before reading `total_pages`), so the fetch count is not the reported N. -/
theorem pagination_zero_total_counterexample :
    (fun _ : Nat => FetchResult.ok ⟨0, 0, [], []⟩) 1 = FetchResult.ok ⟨0, 0, [], []⟩ ∧
    (collect (fun _ => FetchResult.ok ⟨0, 0, [], []⟩)).fetched.length = 1 ∧
    (1 : Nat) ≠ 0 :=
  ⟨rfl, rfl, by decide⟩

/-- C1 (amended): if page 1's metadata reports `total_pages = N` and all
needed pages succeed, the collector fetches exactly pages 1, 2, ...,
max(N,1) — exactly max(N,1) fetches (page 1 is always fetched, since the
do-while loop runs its body before reading N).  The value N read from
page 1 is fixed for the run: the statement holds for EVERY `pages`
function, so the `total_pages` field of any page other than page 1 is
ignored and cannot change the fetch count. -/
theorem pagination_fetch_count (pages : Nat → FetchResult) (d : PageData)
    (h1 : pages 1 = FetchResult.ok d)
    (hok : ∀ p, 2 ≤ p → p ≤ d.total_pages → ∃ e, pages p = FetchResult.ok e) :
    (collect pages).fetched = pagesFrom 1 (max d.total_pages 1) ∧
    ∃ acc, (collect pages).result = Except.ok acc := by
  by_cases h2 : 2 ≤ d.total_pages
  · obtain ⟨acc, hacc⟩ :=
      collectRest_ok pages d.total_pages (d.total_pages - 2) 2
        d.workouts d.workout_items [1] (le_refl 2) h2 (by omega) hok
    have hcol : collect pages =
        ⟨[1] ++ pagesFrom 2 (d.total_pages + 1 - 2), Except.ok acc⟩ := by
      simp only [collect, h1]
      rw [if_pos h2, hacc]
    rw [hcol]
    have hmax : max d.total_pages 1 = d.total_pages := by omega
    have ha : d.total_pages + 1 - 2 = d.total_pages - 1 := by omega
    have hb : d.total_pages = (d.total_pages - 1) + 1 := by omega
    refine ⟨?_, acc, rfl⟩
    rw [hmax, ha, hb, pagesFrom]
    rfl
  · have hcol : collect pages = ⟨[1], Except.ok (d.workouts, d.workout_items)⟩ := by
      simp only [collect, h1]
      rw [if_neg h2]
    rw [hcol]
    have hmax : max d.total_pages 1 = 1 := by omega
    exact ⟨by rw [hmax]; rfl, (d.workouts, d.workout_items), rfl⟩

/-- C1 witness: three ok pages reporting `total_pages = 3` from page 1:
the collector fetches exactly pages [1, 2, 3]. -/
theorem pagination_fetch_count_witness :
    (collect (fun _ => FetchResult.ok ⟨3, 9, [], []⟩)).fetched =
      pagesFrom 1 (max 3 1) ∧
    ∃ acc, (collect (fun _ => FetchResult.ok ⟨3, 9, [], []⟩)).result =
      Except.ok acc :=
  pagination_fetch_count (fun _ => FetchResult.ok ⟨3, 9, [], []⟩) ⟨3, 9, [], []⟩
    rfl (fun _ _ _ => ⟨⟨3, 9, [], []⟩, rfl⟩)

/-- C2 counterexample: with a session artifact holding a valid
access_token but NO user_id, the run does NOT fail before the network: the
client id resolves to null, yet a page fetch is still issued (the code
never checks the user id before fetching), refuting "zero network calls". -/
theorem missing_userid_still_fetches :
    getClientID (some ⟨some ⟨JSVal.str "tok", JSVal.undef⟩⟩) = JSVal.null ∧
    (runExport (some ⟨some ⟨JSVal.str "tok", JSVal.undef⟩⟩)
      (fun _ => FetchResult.ok ⟨1, 0, [], []⟩)).fetched = [1] ∧
    (runExport (some ⟨some ⟨JSVal.str "tok", JSVal.undef⟩⟩)
      (fun _ => FetchResult.ok ⟨1, 0, [], []⟩)).outcome ≠ RunOutcome.noToken :=
  ⟨by decide, by decide, by decide⟩

/-- C2 (amended): a missing or empty `access_token` (a falsy token) makes
the run abort before any network call — zero fetches — with the
credential-failure outcome; the `user_id`, by contrast, is never checked
before fetching, so a missing user id alone does not prevent page
fetches (see the counterexample). -/
theorem missing_token_aborts_before_fetch (cookie : Option SessionData)
    (pages : Nat → FetchResult)
    (h : truthy (getBearerToken cookie) = false) :
    runExport cookie pages = ⟨RunOutcome.noToken, []⟩ := by
  simp [runExport, h]

/-- C2 witness: an artifact with an empty access_token and a present
user_id: the run aborts with no fetch at all. -/
theorem missing_token_aborts_before_fetch_witness :
    truthy (getBearerToken (some ⟨some ⟨JSVal.str "", JSVal.str "user"⟩⟩)) = false ∧
    runExport (some ⟨some ⟨JSVal.str "", JSVal.str "user"⟩⟩)
      (fun _ => FetchResult.ok ⟨1, 0, [], []⟩) = ⟨RunOutcome.noToken, []⟩ :=
  ⟨by decide, missing_token_aborts_before_fetch _ _ (by decide)⟩

/-- C7: if every page before page k succeeds and page k returns a
non-success status, the whole run aborts at page k: the outcome is the
fetch failure carrying that status, exactly pages 1..k were fetched (no
later page), and no output is handed to the sink (the outcome is not
`completed`, which is the only outcome carrying CSV bytes). -/
theorem fetch_fail_aborts (cookie : Option SessionData)
    (pages : Nat → FetchResult) (k status : Nat)
    (htok : truthy (getBearerToken cookie) = true)
    (hfail : pages k = FetchResult.err status)
    (hprev : ∀ p, 1 ≤ p → p < k → ∃ e, pages p = FetchResult.ok e)
    (hreach : k = 1 ∨ ∃ d, pages 1 = FetchResult.ok d ∧ 2 ≤ k ∧ k ≤ d.total_pages) :
    runExport cookie pages = ⟨RunOutcome.failed status, pagesFrom 1 k⟩ := by
  have hcol : collect pages = ⟨pagesFrom 1 k, Except.error status⟩ := by
    rcases hreach with hk1 | ⟨d, h1, hk2, hktp⟩
    · subst hk1
      simp [collect, hfail, pagesFrom]
    · have h2 : 2 ≤ d.total_pages := le_trans hk2 hktp
      simp only [collect, h1]
      rw [if_pos h2,
        collectRest_fail pages d.total_pages k status (d.total_pages - 2) 2
          d.workouts d.workout_items [1] (le_refl 2) hk2 hktp (by omega)
          (fun p hp1 hp2 => hprev p (by omega) hp2) hfail]
      have ha : k + 1 - 2 = k - 1 := by omega
      have hb : k = (k - 1) + 1 := by omega
      rw [ha]
      conv_rhs => rw [hb]
      rw [pagesFrom]
      rfl
  simp [runExport, htok, hcol]

/-- C7 witness: page 1 reports 3 pages, page 2 returns status 500: the run
fails with status 500 after fetching exactly pages [1, 2]. -/
theorem fetch_fail_aborts_witness :
    truthy (getBearerToken (some ⟨some ⟨JSVal.str "t", JSVal.num 7⟩⟩)) = true ∧
    runExport (some ⟨some ⟨JSVal.str "t", JSVal.num 7⟩⟩)
      (fun p => if p = 1 then FetchResult.ok ⟨3, 9, [], []⟩ else FetchResult.err 500)
      = ⟨RunOutcome.failed 500, pagesFrom 1 2⟩ :=
  ⟨by decide,
   fetch_fail_aborts _ _ 2 500 (by decide) rfl
    (by
      intro p hp1 hp2
      have hp : p = 1 := by omega
      subst hp
      exact ⟨⟨3, 9, [], []⟩, rfl⟩)
    (Or.inr ⟨⟨3, 9, [], []⟩, rfl, by decide, by decide⟩)⟩

/-- C5: round-trip — for every sequence of JoinedRows (six-cell rows),
parsing the serialized output with the reference delimited-text reader
reconstructs every original cell string value exactly, including cells
containing commas, double quotes, or embedded line breaks (those are the
cells `escapeCell` quotes). -/
theorem csv_roundtrip (rows : List (List JSVal))
    (h : ∀ r ∈ rows, r.length = 6) :
    parseCSV (csvContent (headerRow :: rows)) =
      (headerRow :: rows).map (fun r => r.map cellChars) := by
  rw [csvContent]
  apply parseCSV_serializeTable
  intro row hrow
  rcases List.mem_map.mp hrow with ⟨r, hr, rfl⟩
  rw [List.length_map]
  rcases List.mem_cons.mp hr with rfl | hr
  · simp [headerRow]
  · rw [h r hr]
    omega

/-- C5 witness: one data row whose cells contain a comma, quotes and a
line break round-trips exactly. -/
theorem csv_roundtrip_witness :
    (∀ r ∈ [[JSVal.str "2024-01-01", JSVal.str "Squat, back",
        JSVal.str "say \"hi\"\nok", JSVal.str "5x5", JSVal.str "completed",
        JSVal.str "Leg Day"]], r.length = 6) ∧
    parseCSV (csvContent (headerRow ::
      [[JSVal.str "2024-01-01", JSVal.str "Squat, back",
        JSVal.str "say \"hi\"\nok", JSVal.str "5x5", JSVal.str "completed",
        JSVal.str "Leg Day"]])) =
      (headerRow ::
      [[JSVal.str "2024-01-01", JSVal.str "Squat, back",
        JSVal.str "say \"hi\"\nok", JSVal.str "5x5", JSVal.str "completed",
        JSVal.str "Leg Day"]]).map (fun r => r.map cellChars) :=
  ⟨by decide, csv_roundtrip _ (by decide)⟩

/-- C6: the serialized output's first row is the fixed six-column header,
the data rows follow in the Joiner's output order, and the number of rows
equals 1 + the number of ChildRecords with a matching parent. -/
theorem output_header_and_count (ws : List Workout) (items : List WorkoutItem) :
    parseCSV (csvContent (csvRows ws items)) =
      (headerRow.map cellChars) ::
        (joinLoop (buildWorkoutMap ws) items).1.map (fun r => r.map cellChars) ∧
    (parseCSV (csvContent (csvRows ws items))).length =
      1 + (items.filter
        (fun it => (mapGet (buildWorkoutMap ws) it.workout_id).isSome)).length := by
  have h1 : parseCSV (csvContent (csvRows ws items)) =
      (csvRows ws items).map (fun r => r.map cellChars) := by
    rw [csvContent]
    apply parseCSV_serializeTable
    intro row hrow
    rcases List.mem_map.mp hrow with ⟨r, hr, rfl⟩
    rw [List.length_map]
    rcases List.mem_cons.mp hr with rfl | hr
    · simp [headerRow]
    · rw [joinLoop_rows_cells _ items r hr]
      omega
  constructor
  · rw [h1, csvRows]
    rfl
  · rw [h1, csvRows]
    simp only [List.map_cons, List.length_cons, List.length_map]
    rw [joinLoop_rows_length]
    omega

/-- C10 witness: parent with id the number 5, child with workout_id the
string "5": no match, the child is dropped and reported as orphan 9. -/
theorem strict_key_mismatch_orphan_witness :
    mapGet (buildWorkoutMap
      [⟨JSVal.num 5, JSVal.str "2024-01-01", JSVal.str "Leg Day"⟩])
      (JSVal.str "5") = none ∧
    joinLoop (buildWorkoutMap
      [⟨JSVal.num 5, JSVal.str "2024-01-01", JSVal.str "Leg Day"⟩])
      [⟨JSVal.num 9, JSVal.str "5", JSVal.str "Squat", JSVal.undef,
        JSVal.str "5x5", JSVal.str "completed"⟩]
      = ([], [JSVal.num 9]) :=
  strict_key_mismatch_orphan
    [⟨JSVal.num 5, JSVal.str "2024-01-01", JSVal.str "Leg Day"⟩]
    ⟨JSVal.num 9, JSVal.str "5", JSVal.str "Squat", JSVal.undef,
      JSVal.str "5x5", JSVal.str "completed"⟩
    "5" 5 rfl
    (by
      intro w hw
      rw [List.mem_singleton] at hw
      exact ⟨5, by rw [hw]⟩)
    ⟨by decide, ⟨_, List.mem_singleton.mpr rfl, rfl⟩⟩

end TCExport
